import Mathlib

/-!
Verification of the matching / assignment policy core of the Sketchfab
collection-assignment tool.

Python strings are modelled as `List Char` (`Str`); Python `set`s of strings
as duplicate-free lists used only through membership; Python `dict`s as
association lists in insertion order.  The external similarity library
(`fuzz.partial_ratio`, `fuzz.ratio`) is modelled as an abstract
integer-valued scoring function passed as a parameter.
-/

/-- Python strings modelled as lists of characters. -/
abbrev Str := List Char

/-- Convert a Lean string literal into the model type. -/
def str (s : String) : Str := s.data

/-- Python `str.lower`. -/
def lowerStr (s : Str) : Str := s.map Char.toLower

/-- The similarity scorer supplied by the external fuzzy-matching library. -/
abbrev Scorer := Str → Str → Int

/-- Whitespace class used by the normalizer and by `strip`/`split`. -/
def isSp (c : Char) : Bool := c.isWhitespace

/-- Characters kept by the normalizer regex class `[a-z0-9\s_\-]`. -/
def isKeep (c : Char) : Bool :=
  (decide ('a' ≤ c) && decide (c ≤ 'z')) ||
  (decide ('0' ≤ c) && decide (c ≤ '9')) ||
  isSp c || c == '_' || c == '-'

mutual
/-- Replace each maximal run of characters satisfying `bad` by one space
(the effect of `re.sub(cls + "+", " ", text)`). -/
def squashRuns (bad : Char → Bool) : Str → Str
  | [] => []
  | c :: rest => if bad c then ' ' :: squashSkip bad rest else c :: squashRuns bad rest

/-- Helper of `squashRuns`: currently inside a bad run. -/
def squashSkip (bad : Char → Bool) : Str → Str
  | [] => []
  | c :: rest => if bad c then squashSkip bad rest else c :: squashRuns bad rest
end

/-- Python `str.strip`: drop leading and trailing whitespace. -/
def strip (s : Str) : Str :=
  ((s.dropWhile isSp).reverse.dropWhile isSp).reverse

/-- Split at every character satisfying `p` (Python `str.split(sep)` for a
one-character separator, with `p` testing for that separator). -/
def splitOnPred (p : Char → Bool) : Str → List Str
  | [] => [[]]
  | c :: rest =>
    if p c then [] :: splitOnPred p rest
    else
      match splitOnPred p rest with
      | [] => [[c]]
      | h :: t => (c :: h) :: t

/-- Python `str.split(sep)` for a one-character separator. -/
def pySplit (sep : Char) (s : Str) : List Str := splitOnPred (· == sep) s

/-- Python `str.split()` (no argument): split on whitespace runs, dropping
empty pieces. -/
def splitWs (s : Str) : List Str := (splitOnPred isSp s).filter (· ≠ [])

/-- Python `sep.join(parts)`. -/
def joinSep (sep : Str) : List Str → Str
  | [] => []
  | [x] => x
  | x :: y :: t => x ++ sep ++ joinSep sep (y :: t)

/-- `normalize_text` from `matching.py`: join the parts (absent parts as
empty) with spaces, lowercase, replace runs of characters outside
`[a-z0-9\s_\-]` by a space, collapse whitespace runs, strip. -/
def normalize_text (parts : List (Option Str)) : Str :=
  strip (squashRuns isSp (squashRuns (fun c => !isKeep c)
    (lowerStr (joinSep (str " ") (parts.map (fun p => p.getD []))))))

/-- A collection rule from the Term Configuration (`collections` entry). -/
structure Rule where
  include_terms : List Str
  tag_terms : List Str
  exclude_terms : List Str
  fuzzy_threshold : Option Int
deriving DecidableEq

/-- The Term Configuration (`Terms` in `matching.py`); `negative` holds the
already-lowercased negative terms, as stored by `Terms.__init__`. -/
structure Terms where
  single : List Str
  negative : List Str
  collections : List (Str × Rule)
deriving DecidableEq

/-- Match Signals (`MatchSignals` in `matching.py`). -/
structure MatchSignals where
  tag_hits : List Str
  rule_hits : List Str
  fuzzy_hits : List (Str × Int)
deriving DecidableEq

/-- Policy Result (`PolicyResult` in `matching.py`). -/
structure PolicyResult where
  assigned : List Str
  notes : Str
deriving DecidableEq

/-- `int(cfg.get("fuzzy_threshold", 88))`. -/
def ruleThreshold (cfg : Rule) : Int := cfg.fuzzy_threshold.getD 88

/-- Best fuzzy score of a rule: maximum over the (lowercased) include terms
of the scorer applied against the normalized text, starting from 0. -/
def bestScore (scorer : Scorer) (include_lc : List Str) (name_desc : Str) : Int :=
  (include_lc.map (fun it => scorer it name_desc)).foldl max 0

/-- `any(nt in name_desc for nt in terms.negative)`. -/
def hasNegative (negative : List Str) (name_desc : Str) : Bool :=
  negative.any (fun nt => decide (nt <:+: name_desc))

/-- The per-collection loop body of `collect_signals`, by recursion over the
`terms.collections` association list (dict insertion order).  Each iteration
appends its hits after those produced later in the recursion, matching the
order of the Python appends. -/
def collectFrom (scorer : Scorer) (terms : Terms) (name_desc : Str)
    (tokens : List Str) (tagset : List Str) : List (Str × Rule) → MatchSignals
  | [] => ⟨[], [], []⟩
  | (coll_name, cfg) :: rest =>
    let acc := collectFrom scorer terms name_desc tokens tagset rest
    let include_lc := cfg.include_terms.map lowerStr
    let tag_lc := cfg.tag_terms.map lowerStr
    let exclude_lc := cfg.exclude_terms.map lowerStr
    if hasNegative terms.negative name_desc then acc
    else if exclude_lc.any (fun et => decide (et <:+: name_desc)) then acc
    else
      { tag_hits := (if tag_lc.any (fun s => decide (s ∈ tagset)) then [coll_name] else [])
          ++ acc.tag_hits
        rule_hits := (if include_lc.any (fun s => decide (s ∈ tokens)) then [coll_name] else [])
          ++ acc.rule_hits
        fuzzy_hits :=
          (if ruleThreshold cfg ≤ bestScore scorer include_lc name_desc then
            [(coll_name, bestScore scorer include_lc name_desc)] else [])
          ++ acc.fuzzy_hits }

/-- `collect_signals` from `matching.py`. -/
def collect_signals (scorer : Scorer) (model_name : Str) (description : Option Str)
    (tags : List Str) (terms : Terms) : MatchSignals :=
  let name_desc := normalize_text [some model_name, description, some (joinSep (str ",") tags)]
  collectFrom scorer terms name_desc (splitWs name_desc) (tags.map lowerStr) terms.collections

/-- Dictionary lookup in an association list (first binding wins). -/
def dictLookup (c : Str) : List (Str × Int) → Option Int
  | [] => none
  | kv :: rest => if kv.1 = c then some kv.2 else dictLookup c rest

/-- The vote tally of `policy_assign`: one vote per signal type the
collection appears in (sets, so membership-based). -/
def votes (s : MatchSignals) (c : Str) : Nat :=
  (if c ∈ s.tag_hits then 1 else 0) + (if c ∈ s.rule_hits then 1 else 0) +
    (if (dictLookup c s.fuzzy_hits).isSome then 1 else 0)

/-- Membership in the `strong_fuzzy` set: fuzzy score at least 95. -/
def strongFuzzy (s : MatchSignals) (c : Str) : Bool :=
  match dictLookup c s.fuzzy_hits with
  | some v => decide (95 ≤ v)
  | none => false

/-- The keys of the vote tally: every collection with at least one signal
(duplicate-free, as the tally is a dict). -/
def candidates (s : MatchSignals) : List Str :=
  (s.tag_hits ++ s.rule_hits ++ s.fuzzy_hits.map Prod.fst).dedup

/-- The provisional assignment set: votes ≥ 2 or strong fuzzy. -/
def provisionalList (s : MatchSignals) : List Str :=
  (candidates s).filter (fun c => decide (2 ≤ votes s c) || strongFuzzy s c)

/-- `single_hits`: provisionally assigned collections that belong to the
configured single-assignment set. -/
def single_hits (s : MatchSignals) (t : Terms) : List Str :=
  (provisionalList s).filter (fun c => decide (c ∈ t.single))

/-- The assignment set after the single-assignment collision rule: when two
or more single-assignment collections were provisionally assigned, all of
them are discarded. -/
def assigned_after (s : MatchSignals) (t : Terms) : List Str :=
  if 1 < (single_hits s t).length then
    (provisionalList s).filter (fun c => decide (c ∉ t.single))
  else provisionalList s

/-- The collision note (at most one entry). -/
def collision_note (s : MatchSignals) (t : Terms) : List Str :=
  if 1 < (single_hits s t).length then
    [str "Single-assignment collision: " ++ joinSep (str ", ") (single_hits s t)]
  else []

/-- Python `max(items, key=score)` over dict items: the first entry of
maximal score in insertion order. -/
def firstMax : List (Str × Int) → Option (Str × Int)
  | [] => none
  | kv :: rest => some (rest.foldl (fun acc x => if acc.2 < x.2 then x else acc) kv)

/-- Rendering of the high-fuzzy-candidate note. -/
def fuzzyNote (kv : Str × Int) : Str :=
  str "High fuzzy candidate: " ++ kv.1 ++ str " (" ++ str (toString kv.2) ++ str ")"

/-- The fallback diagnostic note (at most one entry): fires when the
post-collision assignment is empty and fuzzy hits exist. -/
def fallback_note (s : MatchSignals) (t : Terms) : List Str :=
  if assigned_after s t = [] ∧ s.fuzzy_hits ≠ [] then
    match firstMax s.fuzzy_hits with
    | some kv => [fuzzyNote kv]
    | none => []
  else []

/-- `policy_assign` from `matching.py`: sorted final assignment plus the
notes joined by `; ` (collision note first, then fallback note). -/
def policy_assign (s : MatchSignals) (t : Terms) : PolicyResult :=
  { assigned := List.insertionSort (· ≤ ·) (assigned_after s t)
    notes := joinSep (str "; ") (collision_note s t ++ fallback_note s t) }

/-- An item row of the liked-items table: the fields read or written by
`run_auto_assign`.  `none` models a missing/NaN cell. -/
structure Row where
  modelName : Option Str
  description : Option Str
  tags : Option Str
  sug : Option Str
  fuzzy : Option Str
  assigned : Option Str
  notes : Option Str
deriving DecidableEq

/-- Python `s.replace(";", ",")`. -/
def replaceSemi (s : Str) : Str := s.map (fun c => if c == ';' then ',' else c)

/-- `[t.strip() for t in s.split(",") if t.strip()]` (the Tags parser in
`run_auto_assign`). -/
def parseTags (s : Str) : List Str :=
  ((pySplit ',' s).map strip).filter (· ≠ [])

/-- The body of `to_list` on a string cell: replace `;` by `,`, split on
`,`, strip each piece, drop empties. -/
def splitStrip (s : Str) : List Str := parseTags (replaceSemi s)

/-- `to_list` from `run_auto_assign`: a missing cell parses to the empty
list, a string cell via `splitStrip`. -/
def to_list (x : Option Str) : List Str :=
  match x with
  | none => []
  | some s => splitStrip s

/-- The suggested-collections cell: `", ".join(sorted(tag_hits | rule_hits))`. -/
def sugString (s : MatchSignals) : Str :=
  joinSep (str ", ") (List.insertionSort (· ≤ ·) ((s.tag_hits ++ s.rule_hits).dedup))

/-- The fuzzy-diagnostics cell: each fuzzy hit rendered `name:score`, sorted
by collection name, comma-joined. -/
def fuzzyString (s : MatchSignals) : Str :=
  joinSep (str ", ")
    ((List.insertionSort (fun a b : Str × Int => a.1 ≤ b.1) s.fuzzy_hits).map
      (fun kv => kv.1 ++ str ":" ++ str (toString kv.2)))

/-- One iteration of the `run_auto_assign` row loop: refresh the
suggestion/fuzzy diagnostic cells, and either keep a non-empty existing
assignment (re-joined with `", "`, notes defaulted to empty) when
`overwrite` is false, or write the fresh Policy Result. -/
def processRow (scorer : Scorer) (t : Terms) (overwrite : Bool) (r : Row) : Row :=
  let tags := parseTags (r.tags.getD [])
  let signals := collect_signals scorer (r.modelName.getD []) (some (r.description.getD [])) tags t
  let existing := to_list r.assigned
  if existing ≠ [] ∧ overwrite = false then
    { r with sug := some (sugString signals), fuzzy := some (fuzzyString signals),
             assigned := some (joinSep (str ", ") existing),
             notes := some (r.notes.getD []) }
  else
    { r with sug := some (sugString signals), fuzzy := some (fuzzyString signals),
             assigned := some (joinSep (str ", ") (policy_assign signals t).assigned),
             notes := some (policy_assign signals t).notes }

/-- `run_auto_assign` from `auto_assign.py`: the row loop is independent
per row, i.e. a map over a copy of the input table. -/
def run_auto_assign (scorer : Scorer) (rows : List Row) (t : Terms) (overwrite : Bool) : List Row :=
  rows.map (processRow scorer t overwrite)

/-- `find_similar_collections` from `merge_collections.py` with an explicit
threshold: all index pairs `i < j` whose lowercased names score at least the
threshold, sorted by descending score (Python `sorted(key=-score)` is a
stable sort). -/
def find_similar_collections (ratio : Scorer) (names : List Str) (threshold : Int) :
    List (Nat × Nat × Int) :=
  List.insertionSort (fun a b : Nat × Nat × Int => b.2.2 ≤ a.2.2)
    ((List.range names.length).flatMap (fun i =>
      (List.range' (i + 1) (names.length - (i + 1))).filterMap (fun j =>
        if threshold ≤ ratio (lowerStr (names.getD i [])) (lowerStr (names.getD j [])) then
          some (i, j, ratio (lowerStr (names.getD i [])) (lowerStr (names.getD j [])))
        else none)))

/-- `find_similar_collections` at its default threshold 90. -/
def find_similar_collections_default (ratio : Scorer) (names : List Str) :
    List (Nat × Nat × Int) :=
  find_similar_collections ratio names 90

/-! ### Basic lemmas about the string model -/

theorem dropWhile_self_head {p : Char → Bool} {c : Char} {rest : Str}
    (h : List.dropWhile p (c :: rest) = c :: rest) : p c = false := by
  by_contra hc
  rw [List.dropWhile_cons, if_pos (by simpa using hc)] at h
  have : (List.dropWhile p rest).length ≤ rest.length :=
    (List.dropWhile_suffix p).sublist.length_le
  have hlen := congrArg List.length h
  simp at hlen
  omega

theorem dropWhile_idem (p : Char → Bool) (l : Str) :
    List.dropWhile p (List.dropWhile p l) = List.dropWhile p l := by
  induction l with
  | nil => simp
  | cons c rest ih =>
    by_cases hc : p c
    · simp [List.dropWhile_cons, hc, ih]
    · simp [List.dropWhile_cons, hc]

theorem strip_cons_space (l : Str) : strip (' ' :: l) = strip l := by
  simp [strip, List.dropWhile_cons, isSp, Char.isWhitespace]

theorem mem_strip {a : Char} {s : Str} (h : a ∈ strip s) : a ∈ s := by
  simp only [strip, List.mem_reverse] at h
  exact (List.dropWhile_suffix isSp).sublist.subset
    (by simpa using (List.dropWhile_suffix isSp).sublist.subset h)

theorem strip_idem (s : Str) : strip (strip s) = strip s := by
  unfold strip
  set u := s.dropWhile isSp with hu
  have hufix : u.dropWhile isSp = u := by rw [hu]; exact dropWhile_idem _ _
  set v := (u.reverse.dropWhile isSp).reverse with hv
  have hvfix : v.reverse.dropWhile isSp = v.reverse := by
    rw [hv, List.reverse_reverse]; exact dropWhile_idem _ _
  have hvpre : v <+: u := by
    rw [← List.reverse_suffix, hv, List.reverse_reverse]
    exact List.dropWhile_suffix isSp
  have hvdrop : v.dropWhile isSp = v := by
    cases hveq : v with
    | nil => simp
    | cons c rest =>
      obtain ⟨tail, htail⟩ := hvpre
      rw [hveq] at htail
      have huc : u = c :: (rest ++ tail) := by rw [← htail]; simp
      have hpc : isSp c = false := by
        have := hufix
        rw [huc] at this
        exact dropWhile_self_head this
      rw [List.dropWhile_cons, hpc]
      simp
  rw [hvdrop, hvfix]
  simp

theorem splitOnPred_ne_nil (p : Char → Bool) (s : Str) : splitOnPred p s ≠ [] := by
  cases s with
  | nil => simp [splitOnPred]
  | cons c rest =>
    by_cases hc : p c
    · simp [splitOnPred, hc]
    · simp only [splitOnPred, hc, if_neg, Bool.false_eq_true, if_false]
      cases splitOnPred p rest <;> simp

theorem splitOnPred_sepFree {p : Char → Bool} {s : Str} (h : ∀ c ∈ s, p c = false) :
    splitOnPred p s = [s] := by
  induction s with
  | nil => rfl
  | cons c rest ih =>
    have hc : p c = false := h c (by simp)
    have := ih (fun x hx => h x (by simp [hx]))
    simp [splitOnPred, hc, this]

theorem splitOnPred_cons_neg {p : Char → Bool} {c : Char} {s : Str} {h0 : Str} {t0 : List Str}
    (hpc : p c = false) (he : splitOnPred p s = h0 :: t0) :
    splitOnPred p (c :: s) = (c :: h0) :: t0 := by
  simp [splitOnPred, hpc, he]

theorem splitOnPred_append_sep {p : Char → Bool} {xs ys : Str} {sep : Char}
    (hxs : ∀ c ∈ xs, p c = false) (hsep : p sep = true) :
    splitOnPred p (xs ++ sep :: ys) = xs :: splitOnPred p ys := by
  induction xs with
  | nil => simp [splitOnPred, hsep]
  | cons c rest ih =>
    have hc : p c = false := hxs c (by simp)
    have hrest := ih (fun x hx => hxs x (by simp [hx]))
    simpa using splitOnPred_cons_neg hc hrest

theorem mem_splitOnPred_no_sep {p : Char → Bool} {s : Str} :
    ∀ q ∈ splitOnPred p s, ∀ c ∈ q, p c = false := by
  induction s with
  | nil => intro q hq; simp [splitOnPred] at hq; simp [hq]
  | cons c rest ih =>
    intro q hq
    by_cases hc : p c
    · simp only [splitOnPred, hc, if_true, List.mem_cons] at hq
      rcases hq with h | h
      · simp [h]
      · exact ih q h
    · simp only [splitOnPred, hc, Bool.false_eq_true, if_false] at hq
      cases he : splitOnPred p rest with
      | nil => exact absurd he (splitOnPred_ne_nil p rest)
      | cons h0 t0 =>
        rw [he] at hq
        simp only [List.mem_cons] at hq
        rcases hq with h | h
        · intro x hx
          rw [h] at hx
          rcases List.mem_cons.1 hx with hx | hx
          · simpa [hx] using hc
          · exact ih h0 (by simp [he]) x hx
        · exact ih q (by simp [he, h])

theorem mem_of_mem_splitOnPred {p : Char → Bool} {s : Str} :
    ∀ q ∈ splitOnPred p s, ∀ c ∈ q, c ∈ s := by
  induction s with
  | nil => intro q hq; simp [splitOnPred] at hq; simp [hq]
  | cons c rest ih =>
    intro q hq
    by_cases hc : p c
    · simp only [splitOnPred, hc, if_true, List.mem_cons] at hq
      rcases hq with h | h
      · simp [h]
      · intro x hx; exact List.mem_cons_of_mem c (ih q h x hx)
    · simp only [splitOnPred, hc, Bool.false_eq_true, if_false] at hq
      cases he : splitOnPred p rest with
      | nil => exact absurd he (splitOnPred_ne_nil p rest)
      | cons h0 t0 =>
        rw [he] at hq
        simp only [List.mem_cons] at hq
        rcases hq with h | h
        · intro x hx
          rw [h] at hx
          rcases List.mem_cons.1 hx with hx | hx
          · simp [hx]
          · exact List.mem_cons_of_mem c (ih h0 (by simp [he]) x hx)
        · intro x hx; exact List.mem_cons_of_mem c (ih q (by simp [he, h]) x hx)

theorem mem_joinSep {sep : Str} {l : List Str} {c : Char} (h : c ∈ joinSep sep l) :
    c ∈ sep ∨ ∃ x ∈ l, c ∈ x := by
  induction l with
  | nil => simp [joinSep] at h
  | cons x rest ih =>
    cases rest with
    | nil => right; exact ⟨x, by simp, by simpa [joinSep] using h⟩
    | cons y t =>
      simp only [joinSep, List.append_assoc, List.mem_append] at h
      rcases h with h | h | h
      · right; exact ⟨x, by simp, h⟩
      · left; exact h
      · rcases ih h with h' | ⟨z, hz, hcz⟩
        · left; exact h'
        · right; exact ⟨z, by simp [hz], hcz⟩

theorem replaceSemi_no_semi {s : Str} {c : Char} (h : c ∈ replaceSemi s) : c ≠ ';' := by
  simp only [replaceSemi, List.mem_map] at h
  obtain ⟨a, _, ha⟩ := h
  intro hc
  subst hc
  by_cases hsem : a == ';'
  · rw [if_pos hsem] at ha; exact absurd ha (by decide)
  · rw [if_neg hsem] at ha; rw [ha] at hsem; exact hsem (by decide)

theorem replaceSemi_eq_self {s : Str} (h : ∀ c ∈ s, c ≠ ';') : replaceSemi s = s := by
  unfold replaceSemi
  induction s with
  | nil => rfl
  | cons c rest ih =>
    simp only [List.map_cons]
    have hc : (c == ';') = false := by simpa using h c (by simp)
    rw [hc]
    simp only [Bool.false_eq_true, if_false]
    rw [ih (fun x hx => h x (by simp [hx]))]

theorem parseTags_cons_space (s : Str) : parseTags (' ' :: s) = parseTags s := by
  unfold parseTags pySplit
  cases he : splitOnPred (· == ',') s with
  | nil => exact absurd he (splitOnPred_ne_nil _ s)
  | cons h0 t0 =>
    rw [splitOnPred_cons_neg (by decide) he]
    simp only [List.map_cons]
    rw [strip_cons_space]

theorem parseTags_joinCS {l : List Str}
    (h : ∀ x ∈ l, x ≠ [] ∧ (∀ c ∈ x, c ≠ ',') ∧ strip x = x) :
    parseTags (joinSep (str ", ") l) = l := by
  induction l with
  | nil => rfl
  | cons x rest ih =>
    obtain ⟨hxne, hxc, hxs⟩ := h x (by simp)
    have hxfree : ∀ c ∈ x, (c == ',') = false := by
      intro c hc; simpa using hxc c hc
    cases rest with
    | nil =>
      show parseTags x = [x]
      unfold parseTags pySplit
      rw [splitOnPred_sepFree hxfree]
      simp [hxs, hxne]
    | cons y t =>
      have hrest := ih (fun z hz => h z (by simp [hz]))
      have hjoin : joinSep (str ", ") (x :: y :: t) =
          x ++ ',' :: ' ' :: joinSep (str ", ") (y :: t) := by
        show x ++ str ", " ++ joinSep (str ", ") (y :: t) = _
        rw [List.append_assoc]
        rfl
      rw [hjoin]
      unfold parseTags pySplit
      rw [splitOnPred_append_sep hxfree (by decide)]
      simp only [List.map_cons, List.filter_cons]
      rw [hxs]
      have : (decide (x ≠ [])) = true := by simpa using hxne
      rw [this]
      have htail : ((splitOnPred (· == ',') (' ' :: joinSep (str ", ") (y :: t))).map strip).filter
          (· ≠ []) = y :: t := by
        have h1 : parseTags (' ' :: joinSep (str ", ") (y :: t)) =
            parseTags (joinSep (str ", ") (y :: t)) := parseTags_cons_space _
        rw [hrest] at h1
        exact h1
      rw [htail]
      simp

theorem splitStrip_clean {s : Str} :
    ∀ e ∈ splitStrip s, e ≠ [] ∧ (∀ c ∈ e, c ≠ ',' ∧ c ≠ ';') ∧ strip e = e := by
  intro e he
  unfold splitStrip parseTags at he
  rw [List.mem_filter] at he
  obtain ⟨hmem, hne⟩ := he
  rw [List.mem_map] at hmem
  obtain ⟨q, hq, hqe⟩ := hmem
  refine ⟨by simpa using hne, ?_, ?_⟩
  · intro c hc
    rw [← hqe] at hc
    have hcq : c ∈ q := mem_strip hc
    constructor
    · have := mem_splitOnPred_no_sep q hq c hcq
      simpa using this
    · exact replaceSemi_no_semi (mem_of_mem_splitOnPred q hq c hcq)
  · rw [← hqe]; exact strip_idem q

theorem splitStrip_joinCS {l : List Str}
    (h : ∀ x ∈ l, x ≠ [] ∧ (∀ c ∈ x, c ≠ ',' ∧ c ≠ ';') ∧ strip x = x) :
    splitStrip (joinSep (str ", ") l) = l := by
  unfold splitStrip
  have hsemi : ∀ c ∈ joinSep (str ", ") l, c ≠ ';' := by
    intro c hc
    rcases mem_joinSep hc with hs | ⟨x, hx, hcx⟩
    · intro hcs; rw [hcs] at hs; exact absurd hs (by decide)
    · exact ((h x hx).2.1 c hcx).2
  rw [replaceSemi_eq_self hsemi]
  exact parseTags_joinCS (fun x hx => ⟨(h x hx).1, fun c hc => ((h x hx).2.1 c hc).1, (h x hx).2.2⟩)

theorem splitStrip_roundtrip (s : Str) :
    splitStrip (joinSep (str ", ") (splitStrip s)) = splitStrip s :=
  splitStrip_joinCS (fun x hx => splitStrip_clean x hx)

/-! ### Lemmas about the policy engine helpers -/

theorem dictLookup_isSome_iff {c : Str} {l : List (Str × Int)} :
    (dictLookup c l).isSome = true ↔ c ∈ l.map Prod.fst := by
  induction l with
  | nil => simp [dictLookup]
  | cons kv rest ih =>
    by_cases hk : kv.1 = c
    · simp [dictLookup, hk]
    · simp only [dictLookup, hk, if_false, List.map_cons, List.mem_cons, ih]
      constructor
      · exact Or.inr
      · rintro (h | h)
        · exact absurd h.symm hk
        · exact h

theorem infix_joinSep {sep : Str} {l : List Str} {x : Str} (hx : x ∈ l) :
    x <:+: joinSep sep l := by
  induction l with
  | nil => simp at hx
  | cons a rest ih =>
    cases rest with
    | nil =>
      simp only [List.mem_singleton] at hx
      rw [hx]
      exact List.infix_refl _
    | cons b t =>
      rcases List.mem_cons.1 hx with h | h
      · subst h
        show x <:+: x ++ sep ++ joinSep sep (b :: t)
        rw [List.append_assoc]
        exact (List.prefix_append x _).isInfix
      · have := ih h
        show x <:+: a ++ sep ++ joinSep sep (b :: t)
        exact this.trans (List.suffix_append _ _).isInfix

theorem insertionSort_eq_nil_iff {α : Type} {r : α → α → Prop} [DecidableRel r] {l : List α} :
    List.insertionSort r l = [] ↔ l = [] := by
  constructor
  · intro h
    have hp := List.perm_insertionSort r l
    rw [h] at hp
    exact hp.symm.eq_nil
  · intro h; rw [h]; rfl

theorem mem_assigned_after {s : MatchSignals} {t : Terms} {c : Str}
    (h : c ∈ assigned_after s t) : c ∈ provisionalList s := by
  unfold assigned_after at h
  by_cases hlen : 1 < (single_hits s t).length
  · rw [if_pos hlen] at h; exact (List.mem_filter.1 h).1
  · rwa [if_neg hlen] at h

theorem mem_provisional_candidates {s : MatchSignals} {c : Str}
    (h : c ∈ provisionalList s) : c ∈ candidates s :=
  (List.mem_filter.1 h).1

theorem mem_candidates_evidence {s : MatchSignals} {c : Str} (h : c ∈ candidates s) :
    c ∈ s.tag_hits ∨ c ∈ s.rule_hits ∨ c ∈ s.fuzzy_hits.map Prod.fst := by
  have := List.mem_dedup.1 h
  simpa using this

theorem mem_policy_assigned {s : MatchSignals} {t : Terms} {c : Str}
    (h : c ∈ (policy_assign s t).assigned) : c ∈ provisionalList s :=
  mem_assigned_after ((List.mem_insertionSort _).1 h)

theorem policy_assign_assigned (s : MatchSignals) (t : Terms) :
    (policy_assign s t).assigned = List.insertionSort (· ≤ ·) (assigned_after s t) := rfl

theorem policy_assign_notes (s : MatchSignals) (t : Terms) :
    (policy_assign s t).notes = joinSep (str "; ") (collision_note s t ++ fallback_note s t) := rfl

theorem collectFrom_negative (scorer : Scorer) (t : Terms) (nd : Str) (tk tg : List Str)
    (h : hasNegative t.negative nd = true) :
    ∀ l, collectFrom scorer t nd tk tg l = ⟨[], [], []⟩ := by
  intro l
  induction l with
  | nil => rfl
  | cons hd rest ih =>
    obtain ⟨cn, cfg⟩ := hd
    simp only [collectFrom, h, if_true, ih]

theorem mem_ite_singleton {α : Type} {b : Prop} [Decidable b] {y x : α}
    (h : x ∈ (if b then [y] else [])) : x = y := by
  by_cases hb : b
  · rw [if_pos hb] at h; simpa using h
  · rw [if_neg hb] at h; simp at h

theorem collectFrom_subset (scorer : Scorer) (t : Terms) (nd : Str) (tk tg : List Str)
    (l : List (Str × Rule)) :
    (∀ x ∈ (collectFrom scorer t nd tk tg l).tag_hits, x ∈ l.map Prod.fst) ∧
    (∀ x ∈ (collectFrom scorer t nd tk tg l).rule_hits, x ∈ l.map Prod.fst) ∧
    (∀ x ∈ (collectFrom scorer t nd tk tg l).fuzzy_hits.map Prod.fst, x ∈ l.map Prod.fst) := by
  induction l with
  | nil => simp [collectFrom]
  | cons hd rest ih =>
    obtain ⟨cn, cfg⟩ := hd
    by_cases hneg : hasNegative t.negative nd = true
    · simp only [collectFrom, hneg, if_true]
      exact ⟨fun x hx => List.mem_cons_of_mem _ (ih.1 x hx),
             fun x hx => List.mem_cons_of_mem _ (ih.2.1 x hx),
             fun x hx => List.mem_cons_of_mem _ (ih.2.2 x hx)⟩
    · rw [Bool.not_eq_true] at hneg
      by_cases hexc : (cfg.exclude_terms.map lowerStr).any (fun et => decide (et <:+: nd)) = true
      · simp only [collectFrom, hneg, Bool.false_eq_true, if_false, hexc, if_true]
        exact ⟨fun x hx => List.mem_cons_of_mem _ (ih.1 x hx),
               fun x hx => List.mem_cons_of_mem _ (ih.2.1 x hx),
               fun x hx => List.mem_cons_of_mem _ (ih.2.2 x hx)⟩
      · rw [Bool.not_eq_true] at hexc
        simp only [collectFrom, hneg, Bool.false_eq_true, if_false, hexc]
        refine ⟨?_, ?_, ?_⟩
        · intro x hx
          rcases List.mem_append.1 hx with h | h
          · rcases mem_ite_singleton h with rfl
            rw [List.map_cons]
            exact List.mem_cons_self _ _
          · exact List.mem_cons_of_mem _ (ih.1 x h)
        · intro x hx
          rcases List.mem_append.1 hx with h | h
          · rcases mem_ite_singleton h with rfl
            rw [List.map_cons]
            exact List.mem_cons_self _ _
          · exact List.mem_cons_of_mem _ (ih.2.1 x h)
        · intro x hx
          rw [List.map_append, List.mem_append] at hx
          rcases hx with h | h
          · by_cases hc : ruleThreshold cfg ≤ bestScore scorer (cfg.include_terms.map lowerStr) nd
            · rw [if_pos hc] at h
              simp only [List.map_cons, List.map_nil, List.mem_singleton] at h
              rcases h with rfl
              rw [List.map_cons]
              exact List.mem_cons_self _ _
            · rw [if_neg hc] at h
              simp at h
          · exact List.mem_cons_of_mem _ (ih.2.2 x h)

/-! ### Concrete inputs used by witnesses and counterexamples -/

/-- A trivial scorer (the library scorer is external; witnesses fix one). -/
def scorer0 : Scorer := fun _ _ => 0

/-- The empty Term Configuration. -/
def emptyTerms : Terms := ⟨[], [], []⟩

/-- Configuration with one negative term and one collection. -/
def negTerms : Terms :=
  ⟨[], [str "nsfw"], [(str "robots", ⟨[str "robot"], [str "robot"], [], none⟩)]⟩

/-- Signals with tag and rule evidence for one collection. -/
def sigEvid : MatchSignals := ⟨[str "a"], [str "a"], []⟩

/-- Two single-assignment collections, as in the spec's hands/feet example. -/
def termsHF : Terms := ⟨[str "feet", str "hands"], [], []⟩

/-- Strong-fuzzy signals for both single-assignment collections. -/
def sigHF : MatchSignals := ⟨[], [], [(str "hands", 96), (str "feet", 96)]⟩

/-! ### Claims -/

/-- C5: an item whose normalized text contains a configured global negative
term as a substring receives no tag hit, no rule hit and no fuzzy hit for
any collection: all three signal sets are empty. -/
theorem negative_term_suppression (scorer : Scorer) (name : Str) (desc : Option Str)
    (tags : List Str) (t : Terms)
    (h : ∃ nt ∈ t.negative,
      nt <:+: normalize_text [some name, desc, some (joinSep (str ",") tags)]) :
    collect_signals scorer name desc tags t = ⟨[], [], []⟩ := by
  have hb : hasNegative t.negative
      (normalize_text [some name, desc, some (joinSep (str ",") tags)]) = true := by
    rw [hasNegative, List.any_eq_true]
    obtain ⟨nt, hnt, hinf⟩ := h
    exact ⟨nt, hnt, by simpa using hinf⟩
  unfold collect_signals
  exact collectFrom_negative _ _ _ _ _ hb _

/-- Witness for C5 at a concrete item and configuration. -/
theorem negative_term_suppression_witness :
    (∃ nt ∈ negTerms.negative,
      nt <:+: normalize_text [some (str "NSFW robot"), none,
        some (joinSep (str ",") [str "robot"])]) ∧
    collect_signals scorer0 (str "NSFW robot") none [str "robot"] negTerms = ⟨[], [], []⟩ :=
  ⟨by decide,
   negative_term_suppression scorer0 (str "NSFW robot") none [str "robot"] negTerms (by decide)⟩

/-- C10: every collection in the Policy Engine's final assigned list appears
in at least one of the input signals: tag hits, rule hits, or the fuzzy-hits
mapping. -/
theorem assigned_has_evidence (s : MatchSignals) (t : Terms) :
    ∀ c ∈ (policy_assign s t).assigned,
      c ∈ s.tag_hits ∨ c ∈ s.rule_hits ∨ c ∈ s.fuzzy_hits.map Prod.fst :=
  fun _ hc => mem_candidates_evidence (mem_provisional_candidates (mem_policy_assigned hc))

/-- Witness for C10: a concretely assigned collection has recorded evidence. -/
theorem assigned_has_evidence_witness :
    str "a" ∈ sigEvid.tag_hits ∨ str "a" ∈ sigEvid.rule_hits ∨
      str "a" ∈ sigEvid.fuzzy_hits.map Prod.fst :=
  assigned_has_evidence sigEvid emptyTerms (str "a") (by decide)

/-- C4: a collection is provisionally assigned iff its vote count (one vote
per signal type, hence at most 3) is at least 2 or its fuzzy score is at
least 95; and the final assigned list is sorted by the case-sensitive
ordinal order on names. -/
theorem provisional_iff_votes_and_sorted (s : MatchSignals) (t : Terms) :
    (∀ c, c ∈ provisionalList s ↔ (2 ≤ votes s c ∨ strongFuzzy s c = true)) ∧
    (∀ c, votes s c ≤ 3) ∧
    List.Sorted (· ≤ ·) (policy_assign s t).assigned := by
  refine ⟨?_, ?_, ?_⟩
  · intro c
    constructor
    · intro h
      have := (List.mem_filter.1 h).2
      simpa using this
    · intro h
      rw [provisionalList, List.mem_filter]
      refine ⟨?_, by simpa using h⟩
      rw [candidates, List.mem_dedup]
      rcases h with h | h
      · by_contra hc
        simp only [List.mem_append, not_or] at hc
        obtain ⟨⟨h1, h2⟩, h3⟩ := hc
        rw [votes, if_neg h1, if_neg h2,
          if_neg (fun hcond => h3 (dictLookup_isSome_iff.1 hcond))] at h
        omega
      · have hsome : (dictLookup c s.fuzzy_hits).isSome = true := by
          rw [strongFuzzy] at h
          cases hd : dictLookup c s.fuzzy_hits with
          | none => rw [hd] at h; simp at h
          | some v => simp
        simp [dictLookup_isSome_iff.1 hsome]
  · intro c
    rw [votes]
    split_ifs <;> omega
  · rw [policy_assign_assigned]
    exact List.sorted_insertionSort _ _

/-- C3: when two or more single-assignment collections are provisionally
assigned, none of them appears in the final assigned list and each of them
is named in the notes string; when exactly one is provisionally assigned,
it is kept. -/
theorem single_assignment_collision (s : MatchSignals) (t : Terms) :
    (2 ≤ (single_hits s t).length →
      ∀ c ∈ single_hits s t,
        c ∉ (policy_assign s t).assigned ∧ c <:+: (policy_assign s t).notes) ∧
    ((single_hits s t).length = 1 →
      ∀ c ∈ single_hits s t, c ∈ (policy_assign s t).assigned) := by
  constructor
  · intro hlen c hc
    have hlt : 1 < (single_hits s t).length := hlen
    constructor
    · intro hmem
      rw [policy_assign_assigned] at hmem
      have h1 := (List.mem_insertionSort _).1 hmem
      rw [assigned_after, if_pos hlt, List.mem_filter] at h1
      have hsingle : c ∈ t.single := by
        have := (List.mem_filter.1 hc).2
        simpa using this
      have h2 := h1.2
      simp only [decide_eq_true_eq] at h2
      exact h2 hsingle
    · rw [policy_assign_notes]
      have hnote : collision_note s t =
          [str "Single-assignment collision: " ++ joinSep (str ", ") (single_hits s t)] := by
        rw [collision_note, if_pos hlt]
      have h2 : c <:+: joinSep (str ", ") (single_hits s t) := infix_joinSep hc
      have h3 : c <:+: str "Single-assignment collision: " ++
          joinSep (str ", ") (single_hits s t) :=
        h2.trans (List.suffix_append _ _).isInfix
      have h4 : (str "Single-assignment collision: " ++
          joinSep (str ", ") (single_hits s t)) <:+:
          joinSep (str "; ") (collision_note s t ++ fallback_note s t) :=
        infix_joinSep (by rw [hnote]; simp)
      exact h3.trans h4
  · intro hlen c hc
    have hnlt : ¬ 1 < (single_hits s t).length := by omega
    rw [policy_assign_assigned]
    apply (List.mem_insertionSort _).2
    rw [assigned_after, if_neg hnlt]
    exact (List.mem_filter.1 hc).1

/-- Witness for C3 at the spec's hands/feet collision scenario. -/
theorem single_assignment_collision_witness :
    str "hands" ∉ (policy_assign sigHF termsHF).assigned ∧
    str "hands" <:+: (policy_assign sigHF termsHF).notes :=
  (single_assignment_collision sigHF termsHF).1 (by decide) (str "hands") (by decide)

/-- Fuzzy signals with a score tie, listed in non-alphabetical insertion
order (the configuration listed collection `b` before `a`). -/
def sigTie : MatchSignals := ⟨[], [], [(str "b", 90), (str "a", 90)]⟩

/-- Modelled from the spec's words, for comparison with the code: the
fallback candidate chosen "by score, ties broken by earliest collection
name in sorted order". -/
def spec_fallback_candidate (s : MatchSignals) : Option (Str × Int) :=
  firstMax (List.insertionSort (fun a b : Str × Int => a.1 ≤ b.1) s.fuzzy_hits)

/-- Counterexample to C6: with tied fuzzy scores the code cites the first
maximal entry in the mapping's insertion order (`b`), not the earliest
name in sorted order (`a`) that the spec prescribes. -/
theorem fallback_tiebreak_cex :
    (policy_assign sigTie emptyTerms).assigned = [] ∧
    sigTie.fuzzy_hits ≠ [] ∧
    (policy_assign sigTie emptyTerms).notes = fuzzyNote (str "b", 90) ∧
    (policy_assign sigTie emptyTerms).notes ≠ fuzzyNote (str "a", 90) ∧
    spec_fallback_candidate sigTie = some (str "a", 90) := by decide

/-- C6 (amended): when the final assignment is empty and fuzzy hits exist,
the appended note cites the first highest-scoring entry of the fuzzy-hits
mapping in insertion order (ties broken by insertion order, not by sorted
name order), and the cited candidate is not assigned. -/
theorem fallback_cites_insertion_order_max (s : MatchSignals) (t : Terms)
    (h1 : (policy_assign s t).assigned = []) (h2 : s.fuzzy_hits ≠ []) :
    ∃ kv, firstMax s.fuzzy_hits = some kv ∧
      (policy_assign s t).notes =
        joinSep (str "; ") (collision_note s t ++ [fuzzyNote kv]) ∧
      kv.1 ∉ (policy_assign s t).assigned := by
  have hafter : assigned_after s t = [] := by
    rw [policy_assign_assigned] at h1
    exact insertionSort_eq_nil_iff.1 h1
  cases hf : s.fuzzy_hits with
  | nil => exact absurd hf h2
  | cons kv0 rest =>
    refine ⟨rest.foldl (fun acc x => if acc.2 < x.2 then x else acc) kv0, ?_, ?_, ?_⟩
    · rfl
    · have hfb : fallback_note s t =
          [fuzzyNote (rest.foldl (fun acc x => if acc.2 < x.2 then x else acc) kv0)] := by
        rw [fallback_note, if_pos ⟨hafter, h2⟩, hf]
        rfl
      rw [policy_assign_notes, hfb]
    · rw [h1]
      exact List.not_mem_nil _

/-- Witness for the amended C6 at the tied-score example. -/
theorem fallback_cites_insertion_order_max_witness :
    ∃ kv, firstMax sigTie.fuzzy_hits = some kv ∧
      (policy_assign sigTie emptyTerms).notes =
        joinSep (str "; ") (collision_note sigTie emptyTerms ++ [fuzzyNote kv]) ∧
      kv.1 ∉ (policy_assign sigTie emptyTerms).assigned :=
  fallback_cites_insertion_order_max sigTie emptyTerms (by decide) (by decide)

/-- Counterexample to C7: a single-assignment collision that empties the
assignment while fuzzy hits exist produces both a collision note and a
high-fuzzy fallback note in the same Policy Result. -/
theorem note_cooccurrence_cex :
    str "Single-assignment collision" <:+: (policy_assign sigHF termsHF).notes ∧
    str "High fuzzy candidate" <:+: (policy_assign sigHF termsHF).notes ∧
    (policy_assign sigHF termsHF).notes =
      str "Single-assignment collision: hands, feet; High fuzzy candidate: hands (96)" := by
  decide

/-- C7 (amended): the notes string is the `; `-join of the collision note
followed by the fallback note; both note types co-occur exactly when two or
more single-assignment collections collided, the resulting assignment is
empty, and fuzzy hits exist. -/
theorem note_types_characterization (s : MatchSignals) (t : Terms) :
    (policy_assign s t).notes = joinSep (str "; ") (collision_note s t ++ fallback_note s t) ∧
    ((collision_note s t ≠ [] ∧ fallback_note s t ≠ []) ↔
      (1 < (single_hits s t).length ∧ (policy_assign s t).assigned = [] ∧
        s.fuzzy_hits ≠ [])) := by
  refine ⟨policy_assign_notes s t, ?_⟩
  have hassigned : (policy_assign s t).assigned = [] ↔ assigned_after s t = [] := by
    rw [policy_assign_assigned]
    exact insertionSort_eq_nil_iff
  constructor
  · rintro ⟨hcn, hfn⟩
    have hlt : 1 < (single_hits s t).length := by
      by_contra h
      rw [collision_note, if_neg h] at hcn
      exact hcn rfl
    refine ⟨hlt, ?_, ?_⟩
    · rw [hassigned]
      by_contra h
      rw [fallback_note, if_neg (fun hc => h hc.1)] at hfn
      exact hfn rfl
    · by_contra h
      rw [fallback_note, if_neg (fun hc => hc.2 h)] at hfn
      exact hfn rfl
  · rintro ⟨hlt, hassign, hfz⟩
    constructor
    · rw [collision_note, if_pos hlt]
      simp
    · rw [fallback_note, if_pos ⟨hassigned.1 hassign, hfz⟩]
      cases hf : s.fuzzy_hits with
      | nil => exact absurd hf hfz
      | cons kv0 rest =>
        simp [firstMax]

theorem dictLookup_collectFrom (scorer : Scorer) (t : Terms) (nd : Str) (tk tg : List Str)
    {cn : Str} {cfg : Rule} :
    ∀ l : List (Str × Rule), (cn, cfg) ∈ l → (l.map Prod.fst).Nodup →
      hasNegative t.negative nd = false →
      ((cfg.exclude_terms.map lowerStr).any (fun et => decide (et <:+: nd))) = false →
      dictLookup cn (collectFrom scorer t nd tk tg l).fuzzy_hits =
        (if ruleThreshold cfg ≤ bestScore scorer (cfg.include_terms.map lowerStr) nd
         then some (bestScore scorer (cfg.include_terms.map lowerStr) nd) else none) := by
  intro l
  induction l with
  | nil => intro h; simp at h
  | cons hd rest ih =>
    intro hmem hnodup hneg hexc
    obtain ⟨cn', cfg'⟩ := hd
    have hnodup' : (rest.map Prod.fst).Nodup := by
      rw [List.map_cons, List.nodup_cons] at hnodup
      exact hnodup.2
    have hhd : cn' ∉ rest.map Prod.fst := by
      rw [List.map_cons, List.nodup_cons] at hnodup
      exact hnodup.1
    rcases List.mem_cons.1 hmem with heq | hmem'
    · rw [Prod.mk.injEq] at heq
      obtain ⟨h1, h2⟩ := heq
      subst h1
      subst h2
      simp only [collectFrom, hneg, Bool.false_eq_true, if_false, hexc]
      by_cases hc : ruleThreshold cfg ≤ bestScore scorer (cfg.include_terms.map lowerStr) nd
      · rw [if_pos hc, if_pos hc]
        simp [dictLookup]
      · rw [if_neg hc, if_neg hc]
        rw [List.nil_append]
        have hnotmem : cn ∉ (collectFrom scorer t nd tk tg rest).fuzzy_hits.map Prod.fst :=
          fun hmm => hhd ((collectFrom_subset scorer t nd tk tg rest).2.2 cn hmm)
        cases hdl : dictLookup cn (collectFrom scorer t nd tk tg rest).fuzzy_hits with
        | none => rfl
        | some v =>
          exact absurd (dictLookup_isSome_iff.1 (by simp [hdl])) hnotmem
    · have hne : cn' ≠ cn := by
        intro hcc
        subst hcc
        exact hhd (List.mem_map.2 ⟨(cn', cfg), hmem', rfl⟩)
      by_cases hexc' : ((cfg'.exclude_terms.map lowerStr).any
          (fun et => decide (et <:+: nd))) = true
      · simp only [collectFrom, hneg, Bool.false_eq_true, if_false, hexc', if_true]
        exact ih hmem' hnodup' hneg hexc
      · rw [Bool.not_eq_true] at hexc'
        simp only [collectFrom, hneg, Bool.false_eq_true, if_false, hexc']
        by_cases hc' : ruleThreshold cfg' ≤ bestScore scorer (cfg'.include_terms.map lowerStr) nd
        · rw [if_pos hc']
          show dictLookup cn ((cn', bestScore scorer (cfg'.include_terms.map lowerStr) nd) ::
            (collectFrom scorer t nd tk tg rest).fuzzy_hits) = _
          rw [dictLookup, if_neg hne]
          exact ih hmem' hnodup' hneg hexc
        · rw [if_neg hc', List.nil_append]
          exact ih hmem' hnodup' hneg hexc

/-- C8: under the rule's guards (no negative or exclude term fires), a fuzzy
hit for a collection is recorded exactly when the maximum scorer value over
its include terms against the normalized text is at least the rule's
threshold (ties count, `≤`), the recorded score being that maximum; and the
threshold of a rule omitting `fuzzy_threshold` defaults to 88. -/
theorem fuzzy_hit_iff_threshold (scorer : Scorer) (name : Str) (desc : Option Str)
    (tags : List Str) (t : Terms) (cn : Str) (cfg : Rule)
    (hmem : (cn, cfg) ∈ t.collections)
    (hnodup : (t.collections.map Prod.fst).Nodup)
    (hneg : ¬ ∃ nt ∈ t.negative,
      nt <:+: normalize_text [some name, desc, some (joinSep (str ",") tags)])
    (hexc : ¬ ∃ et ∈ cfg.exclude_terms.map lowerStr,
      et <:+: normalize_text [some name, desc, some (joinSep (str ",") tags)]) :
    dictLookup cn (collect_signals scorer name desc tags t).fuzzy_hits =
      (if ruleThreshold cfg ≤ bestScore scorer (cfg.include_terms.map lowerStr)
          (normalize_text [some name, desc, some (joinSep (str ",") tags)])
       then some (bestScore scorer (cfg.include_terms.map lowerStr)
          (normalize_text [some name, desc, some (joinSep (str ",") tags)])) else none) ∧
    ruleThreshold cfg = cfg.fuzzy_threshold.getD 88 := by
  constructor
  · have hnegb : hasNegative t.negative
        (normalize_text [some name, desc, some (joinSep (str ",") tags)]) = false := by
      rw [Bool.eq_false_iff]
      intro htrue
      rw [hasNegative, List.any_eq_true] at htrue
      obtain ⟨nt, hnt, hd⟩ := htrue
      exact hneg ⟨nt, hnt, by simpa using hd⟩
    have hexcb : ((cfg.exclude_terms.map lowerStr).any (fun et =>
        decide (et <:+: normalize_text [some name, desc,
          some (joinSep (str ",") tags)]))) = false := by
      rw [Bool.eq_false_iff]
      intro htrue
      rw [List.any_eq_true] at htrue
      obtain ⟨et, het, hd⟩ := htrue
      exact hexc ⟨et, het, by simpa using hd⟩
    exact dictLookup_collectFrom scorer t _ _ _ t.collections hmem hnodup hnegb hexcb
  · rfl

/-- A scorer that always reports exactly 88, the default threshold. -/
def scorer88 : Scorer := fun _ _ => 88

/-- A rule with no explicit fuzzy threshold. -/
def thrRule : Rule := ⟨[str "robot"], [], [], none⟩

/-- A configuration holding only `thrRule`. -/
def thrTerms : Terms := ⟨[], [], [(str "robots", thrRule)]⟩

/-- Witness for C8: a score exactly equal to the defaulted threshold 88 is
recorded as a fuzzy hit. -/
theorem fuzzy_hit_iff_threshold_witness :
    dictLookup (str "robots")
      (collect_signals scorer88 (str "xyz") none [] thrTerms).fuzzy_hits = some 88 := by
  have h := (fuzzy_hit_iff_threshold scorer88 (str "xyz") none [] thrTerms (str "robots")
    thrRule (by decide) (by decide) (by decide) (by decide)).1
  rw [h]
  decide

instance : IsTotal (Nat × Nat × Int) (fun a b : Nat × Nat × Int => b.2.2 ≤ a.2.2) :=
  ⟨fun a b => (le_total a.2.2 b.2.2).symm⟩

instance : IsTrans (Nat × Nat × Int) (fun a b : Nat × Nat × Int => b.2.2 ≤ a.2.2) :=
  ⟨fun _ _ _ h1 h2 => le_trans h2 h1⟩

/-- C9: the Reconciliation operation returns exactly the index pairs
`i < j` whose case-insensitive similarity score meets or exceeds the
threshold, each carrying that score, sorted in descending score order; the
default threshold is 90. -/
theorem find_similar_collections_spec (ratio : Scorer) (names : List Str) (threshold : Int) :
    (∀ i j sc, (i, j, sc) ∈ find_similar_collections ratio names threshold ↔
      (i < j ∧ j < names.length ∧
        sc = ratio (lowerStr (names.getD i [])) (lowerStr (names.getD j [])) ∧
        threshold ≤ sc)) ∧
    List.Sorted (fun a b : Nat × Nat × Int => b.2.2 ≤ a.2.2)
      (find_similar_collections ratio names threshold) ∧
    find_similar_collections_default ratio names = find_similar_collections ratio names 90 := by
  refine ⟨?_, ?_, rfl⟩
  · intro i j sc
    rw [find_similar_collections, List.mem_insertionSort, List.mem_flatMap]
    constructor
    · rintro ⟨i', hi', hmem⟩
      rw [List.mem_filterMap] at hmem
      obtain ⟨j', hj', hsome⟩ := hmem
      rw [List.mem_range] at hi'
      rw [List.mem_range'_1] at hj'
      by_cases hth : threshold ≤ ratio (lowerStr (names.getD i' []))
          (lowerStr (names.getD j' []))
      · rw [if_pos hth] at hsome
        simp only [Option.some.injEq, Prod.mk.injEq] at hsome
        obtain ⟨h1, h2, h3⟩ := hsome
        subst h1
        subst h2
        subst h3
        exact ⟨by omega, by omega, rfl, hth⟩
      · rw [if_neg hth] at hsome
        simp at hsome
    · rintro ⟨hij, hjlen, hsc, hth⟩
      refine ⟨i, by rw [List.mem_range]; omega, ?_⟩
      rw [List.mem_filterMap]
      refine ⟨j, by rw [List.mem_range'_1]; omega, ?_⟩
      rw [hsc] at hth
      rw [if_pos hth, hsc]
  · exact List.sorted_insertionSort _ _

/-- The signals the runner computes for a row. -/
def signalsOf (scorer : Scorer) (t : Terms) (r : Row) : MatchSignals :=
  collect_signals scorer (r.modelName.getD []) (some (r.description.getD []))
    (parseTags (r.tags.getD [])) t

theorem processRow_keep (scorer : Scorer) (t : Terms) (r : Row)
    (h : to_list r.assigned ≠ []) :
    processRow scorer t false r = { r with
      sug := some (sugString (signalsOf scorer t r)),
      fuzzy := some (fuzzyString (signalsOf scorer t r)),
      assigned := some (joinSep (str ", ") (to_list r.assigned)),
      notes := some (r.notes.getD []) } := by
  simp only [processRow]
  rw [if_pos ⟨h, trivial⟩]
  rfl

theorem processRow_policy (scorer : Scorer) (t : Terms) (r : Row)
    (h : to_list r.assigned = []) :
    processRow scorer t false r = { r with
      sug := some (sugString (signalsOf scorer t r)),
      fuzzy := some (fuzzyString (signalsOf scorer t r)),
      assigned := some (joinSep (str ", ")
        (policy_assign (signalsOf scorer t r) t).assigned),
      notes := some (policy_assign (signalsOf scorer t r) t).notes } := by
  simp only [processRow]
  rw [if_neg (fun hc => hc.1 h)]
  rfl

theorem to_list_roundtrip (x : Option Str) :
    splitStrip (joinSep (str ", ") (to_list x)) = to_list x := by
  cases x with
  | none => rfl
  | some s => exact splitStrip_roundtrip s

theorem policy_on_signals_subset_keys (scorer : Scorer) (t : Terms) (r : Row) {c : Str}
    (h : c ∈ (policy_assign (signalsOf scorer t r) t).assigned) :
    c ∈ t.collections.map Prod.fst := by
  have h1 := mem_candidates_evidence (mem_provisional_candidates (mem_policy_assigned h))
  unfold signalsOf collect_signals at h1
  rcases h1 with h | h | h
  · exact (collectFrom_subset _ _ _ _ _ _).1 c h
  · exact (collectFrom_subset _ _ _ _ _ _).2.1 c h
  · exact (collectFrom_subset _ _ _ _ _ _).2.2 c h

/-- A collection name that survives the runner's list parsing unchanged:
non-empty, free of `,` and `;`, with no leading or trailing whitespace. -/
def cleanName (x : Str) : Prop :=
  x ≠ [] ∧ (∀ c ∈ x, c ≠ ',' ∧ c ≠ ';') ∧ strip x = x

instance : DecidablePred cleanName := fun x =>
  decidable_of_iff (x ≠ [] ∧ (∀ c ∈ x, c ≠ ',' ∧ c ≠ ';') ∧ strip x = x) Iff.rfl

theorem processRow_stable (scorer : Scorer) (t : Terms) (r : Row)
    (hclean : ∀ p ∈ t.collections, cleanName p.1) :
    (processRow scorer t false (processRow scorer t false r)).assigned =
      (processRow scorer t false r).assigned ∧
    (processRow scorer t false (processRow scorer t false r)).notes =
      (processRow scorer t false r).notes := by
  by_cases hA : to_list r.assigned = []
  · rw [processRow_policy scorer t r hA]
    by_cases hP : (policy_assign (signalsOf scorer t r) t).assigned = []
    · have h2 : to_list ({ r with
          sug := some (sugString (signalsOf scorer t r)),
          fuzzy := some (fuzzyString (signalsOf scorer t r)),
          assigned := some (joinSep (str ", ")
            (policy_assign (signalsOf scorer t r) t).assigned),
          notes := some (policy_assign (signalsOf scorer t r) t).notes } : Row).assigned
          = [] := by
        show splitStrip (joinSep (str ", ") (policy_assign (signalsOf scorer t r) t).assigned) = []
        rw [hP]
        rfl
      rw [processRow_policy scorer t _ h2]
      exact ⟨rfl, rfl⟩
    · have hcl : ∀ x ∈ (policy_assign (signalsOf scorer t r) t).assigned,
          x ≠ [] ∧ (∀ c ∈ x, c ≠ ',' ∧ c ≠ ';') ∧ strip x = x := by
        intro x hx
        have hkey := policy_on_signals_subset_keys scorer t r hx
        rw [List.mem_map] at hkey
        obtain ⟨p, hp, hpx⟩ := hkey
        have := hclean p hp
        rw [hpx] at this
        exact this
      have h2 : to_list ({ r with
          sug := some (sugString (signalsOf scorer t r)),
          fuzzy := some (fuzzyString (signalsOf scorer t r)),
          assigned := some (joinSep (str ", ")
            (policy_assign (signalsOf scorer t r) t).assigned),
          notes := some (policy_assign (signalsOf scorer t r) t).notes } : Row).assigned
          = (policy_assign (signalsOf scorer t r) t).assigned := by
        show splitStrip (joinSep (str ", ") (policy_assign (signalsOf scorer t r) t).assigned)
          = (policy_assign (signalsOf scorer t r) t).assigned
        exact splitStrip_joinCS hcl
      rw [processRow_keep scorer t _ (by rw [h2]; exact hP)]
      rw [h2]
      exact ⟨rfl, rfl⟩
  · rw [processRow_keep scorer t r hA]
    have h2 : to_list ({ r with
        sug := some (sugString (signalsOf scorer t r)),
        fuzzy := some (fuzzyString (signalsOf scorer t r)),
        assigned := some (joinSep (str ", ") (to_list r.assigned)),
        notes := some (r.notes.getD []) } : Row).assigned = to_list r.assigned := by
      show splitStrip (joinSep (str ", ") (to_list r.assigned)) = to_list r.assigned
      exact to_list_roundtrip r.assigned
    rw [processRow_keep scorer t _ (by rw [h2]; exact hA)]
    rw [h2]
    exact ⟨rfl, rfl⟩

/-- C1 (amended): for every item set and Term Configuration whose collection
names are non-empty, contain no `,` or `;`, and carry no surrounding
whitespace, running the Assignment Runner twice with overwrite false yields
after the second run exactly the assigned-collections and assignment-notes
cells of the first run. -/
theorem run_auto_assign_idempotent (scorer : Scorer) (t : Terms) (rows : List Row)
    (hclean : ∀ p ∈ t.collections, cleanName p.1) :
    (run_auto_assign scorer (run_auto_assign scorer rows t false) t false).map
      (fun r => (r.assigned, r.notes)) =
    (run_auto_assign scorer rows t false).map (fun r => (r.assigned, r.notes)) := by
  unfold run_auto_assign
  simp only [List.map_map]
  apply List.map_congr_left
  intro r _
  have h := processRow_stable scorer t r hclean
  show ((processRow scorer t false (processRow scorer t false r)).assigned,
        (processRow scorer t false (processRow scorer t false r)).notes) =
       ((processRow scorer t false r).assigned, (processRow scorer t false r).notes)
  rw [h.1, h.2]

/-- The rule of the spec's Scenario B: a tag term and an include term. -/
def ruleXY : Rule := ⟨[str "mech"], [str "robot"], [], none⟩

/-- A configuration whose only collection has a comma inside its name. -/
def termsXY : Terms := ⟨[], [], [(str "x,y", ruleXY)]⟩

/-- The same configuration with a parse-stable collection name. -/
def termsClean : Terms := ⟨[], [], [(str "xy", ruleXY)]⟩

/-- An unassigned item matching both the tag term and the include term. -/
def rowM : Row := ⟨some (str "mech"), none, some (str "robot"), none, none, none, none⟩

/-- Counterexample to C1 as stated: with the collection name `x,y` the first
run writes `x,y` into the assigned cell, and the second run re-parses it as
two names and rewrites the cell to `x, y`, so the second run is not a no-op
on the assigned-collections cell. -/
theorem run_auto_assign_idempotent_cex :
    (run_auto_assign scorer0 (run_auto_assign scorer0 [rowM] termsXY false) termsXY false).map
      (fun r => (r.assigned, r.notes)) ≠
    (run_auto_assign scorer0 [rowM] termsXY false).map (fun r => (r.assigned, r.notes)) := by
  decide

/-- Witness for the amended C1 at a concrete item set and clean
configuration. -/
theorem run_auto_assign_idempotent_witness :
    (∀ p ∈ termsClean.collections, cleanName p.1) ∧
    (run_auto_assign scorer0 (run_auto_assign scorer0 [rowM] termsClean false)
        termsClean false).map (fun r => (r.assigned, r.notes)) =
      (run_auto_assign scorer0 [rowM] termsClean false).map
        (fun r => (r.assigned, r.notes)) :=
  ⟨by decide, run_auto_assign_idempotent scorer0 termsClean [rowM] (by decide)⟩

/-- C2 (amended): with overwrite false, an item whose assigned cell parses
to a non-empty list keeps its parsed assigned list (the cell is rewritten as
its `", "`-join) and its notes (a missing notes cell becomes empty), while
the suggestion and fuzzy-diagnostic cells are refreshed from the fresh
signals and every non-annotation field is returned unchanged. -/
theorem runner_preserves_manual (scorer : Scorer) (t : Terms) (r : Row)
    (hne : to_list r.assigned ≠ []) :
    (processRow scorer t false r).assigned =
      some (joinSep (str ", ") (to_list r.assigned)) ∧
    (processRow scorer t false r).notes = some (r.notes.getD []) ∧
    (processRow scorer t false r).sug = some (sugString (signalsOf scorer t r)) ∧
    (processRow scorer t false r).fuzzy = some (fuzzyString (signalsOf scorer t r)) ∧
    (processRow scorer t false r).modelName = r.modelName ∧
    (processRow scorer t false r).description = r.description ∧
    (processRow scorer t false r).tags = r.tags := by
  rw [processRow_keep scorer t r hne]
  exact ⟨rfl, rfl, rfl, rfl, rfl, rfl, rfl⟩

/-- A row carrying a manual assignment entered with a semicolon separator. -/
def rowAB : Row :=
  ⟨some (str "m"), none, none, none, none, some (str "a;b"), some (str "note")⟩

/-- Counterexample to C2 as stated: the assigned cell `a;b` is non-empty and
overwrite is false, yet the runner rewrites the cell to `a, b`, so the field
is not left untouched. -/
theorem runner_preserves_manual_cex :
    to_list rowAB.assigned ≠ [] ∧
    rowAB.assigned = some (str "a;b") ∧
    (processRow scorer0 emptyTerms false rowAB).assigned = some (str "a, b") ∧
    (processRow scorer0 emptyTerms false rowAB).assigned ≠ rowAB.assigned := by
  decide

/-- A row with a parse-stable manual assignment. -/
def rowG : Row :=
  ⟨some (str "m"), none, none, none, none, some (str "gauntlets"), some (str "n")⟩

/-- Witness for the amended C2 at a concrete row. -/
theorem runner_preserves_manual_witness :
    (processRow scorer0 emptyTerms false rowG).assigned =
      some (joinSep (str ", ") (to_list rowG.assigned)) ∧
    (processRow scorer0 emptyTerms false rowG).notes = some (rowG.notes.getD []) ∧
    (processRow scorer0 emptyTerms false rowG).sug =
      some (sugString (signalsOf scorer0 emptyTerms rowG)) ∧
    (processRow scorer0 emptyTerms false rowG).fuzzy =
      some (fuzzyString (signalsOf scorer0 emptyTerms rowG)) ∧
    (processRow scorer0 emptyTerms false rowG).modelName = rowG.modelName ∧
    (processRow scorer0 emptyTerms false rowG).description = rowG.description ∧
    (processRow scorer0 emptyTerms false rowG).tags = rowG.tags :=
  runner_preserves_manual scorer0 emptyTerms rowG (by decide)
